import Mathlib

/-!
Verification of the histogram binning / sparse reduction / inverse sampling
core of the psdist repository.  The repository ships only example notebooks;
the library functions they call (`psdist.points.histogram`,
`psdist.points.sparse_histogram`, `psdist.image.sample_hist`,
`psdist.image.sample_sparse_hist`, `psdist.image.sample`) are not included
in the source tree, so the definitions below are modelled from the
specification's description of the Binner, the Sparse Reducer and the
Inverse Sampler.  Coordinates are rationals, standing in for the real-valued
coordinates of the specification.
-/

namespace PSDist

/-- Modelled from the spec: the per-dimension binning rule of the Binner
(`psdist.points.histogram` is not included under src).  Given the bin edges
of one dimension and a coordinate `x`, returns the bin index `i` such that
`edges[i] ≤ x < edges[i+1]`, except for the final bin, which is closed on
both ends; returns `none` when `x` is out of range or fewer than two edges
are given. -/
def binIndex : List ℚ → ℚ → Option ℕ
  | e0 :: e1 :: rest, x =>
    if x < e0 then none
    else
      match rest with
      | [] => if x ≤ e1 then some 0 else none
      | _ :: _ =>
        if x < e1 then some 0
        else (binIndex (e1 :: rest) x).map (· + 1)
  | _, _ => none

/-- Modelled from the spec: the multi-index of a point, one bin index per
dimension; `none` when the point is out of range in some dimension or its
dimensionality does not match the number of edge sequences. -/
def pointBinIndex : List (List ℚ) → List ℚ → Option (List ℕ)
  | [], [] => some []
  | es :: restE, x :: restX =>
    match binIndex es x, pointBinIndex restE restX with
    | some i, some is => some (i :: is)
    | _, _ => none
  | _, _ => none

/-- Modelled from the spec: the count of the Dense Histogram cell at a given
multi-index — the number of input points whose coordinates fall within that
cell in every dimension. -/
def histCount (points : List (List ℚ)) (edges : List (List ℚ)) (idx : List ℕ) : ℕ :=
  (points.filter (fun p => pointBinIndex edges p = some idx)).length

/-- The shape of the histogram grid: the number of bins per dimension. -/
def shape (edges : List (List ℚ)) : List ℕ :=
  edges.map (fun es => es.length - 1)

/-- All multi-indices of a grid of the given shape, in row-major order. -/
def allIndices : List ℕ → List (List ℕ)
  | [] => [[]]
  | k :: ks => (List.range k).flatMap (fun i => (allIndices ks).map (fun is => i :: is))

/-- Modelled from the spec: the Dense Histogram of the Binner, represented
as the list of all multi-indices of the grid paired with their counts. -/
def denseHistogram (points : List (List ℚ)) (edges : List (List ℚ)) :
    List (List ℕ × ℕ) :=
  (allIndices (shape edges)).map (fun idx => (idx, histCount points edges idx))

/-- Modelled from the spec: the Sparse Reducer (`psdist.points.sparse_histogram`
is not included under src) — the (multi-index, count) pairs of the nonzero
cells of the Dense Histogram over the same points and edges. -/
def sparse_histogram (points : List (List ℚ)) (edges : List (List ℚ)) :
    List (List ℕ × ℕ) :=
  (denseHistogram points edges).filter (fun e => e.2 ≠ 0)

/-- Lookup of a multi-index in a sparse (index, count) list, defaulting to 0
when the index is omitted. -/
def sparseGet (s : List (List ℕ × ℕ)) (idx : List ℕ) : ℕ :=
  match s.find? (fun e => e.1 == idx) with
  | some e => e.2
  | none => 0

/-- Midpoints of consecutive entries of a list. -/
def midpoints (cs : List ℚ) : List ℚ :=
  List.zipWith (fun a b => (a + b) / 2) cs cs.tail

/-- Modelled from the spec: the per-dimension bin-center coordinates of a
histogram — the midpoint of each bin interval. -/
def coords_from_edges (es : List ℚ) : List ℚ :=
  midpoints es

/-- The result of the Binner: the Dense Histogram together with the bin-center
coordinates and the exact bin edges that were used. -/
structure BinResult where
  hist : List (List ℕ × ℕ)
  coords : List (List ℚ)
  edges : List (List ℚ)

/-- Modelled from the spec: the Binner entry point (`psdist.points.histogram`
is not included under src), with the canonical explicit per-dimension edge
list signature; returns the Dense Histogram, the bin-center coordinates and
the exact bin edges used. -/
def histogram (points : List (List ℚ)) (edges : List (List ℚ)) : BinResult :=
  ⟨denseHistogram points edges, edges.map coords_from_edges, edges⟩

/-- Modelled from the spec: the explicit random source supplied to the
Inverse Sampler — a stream of variates in `[0, 1)` together with the current
position; consuming entropy advances the position and nothing else. -/
structure RNG where
  stream : ℕ → ℚ
  pos : ℕ

/-- Draw one variate from the random source. -/
def RNG.next (r : RNG) : ℚ × RNG :=
  (r.stream r.pos, ⟨r.stream, r.pos + 1⟩)

/-- Error taxonomy of the Inverse Sampler. -/
inductive SampleError where
  | emptyDistribution
  | invalidHistogram
deriving DecidableEq

/-- Inverse-CDF selection: the index of the first weight whose cumulative sum
exceeds the target. -/
def catIndex : List ℚ → ℚ → ℕ
  | [], _ => 0
  | w :: rest, t => if t < w then 0 else catIndex rest (t - w) + 1

/-- One sampled coordinate: the left edge of the chosen bin plus a uniform
fraction of the bin's extent. -/
def jitterCoord (es : List ℚ) (i : ℕ) (v : ℚ) : ℚ :=
  es.getD i 0 + v * (es.getD (i + 1) 0 - es.getD i 0)

/-- One sampled point: for the chosen multi-index, an independently drawn
coordinate in each dimension, uniform within that bin's interval. -/
def samplePoint : List (List ℚ) → List ℕ → RNG → List ℚ × RNG
  | [], _, r => ([], r)
  | es :: restE, idx, r =>
    let p := RNG.next r
    let rest := samplePoint restE idx.tail p.2
    (jitterCoord es (idx.headD 0) p.1 :: rest.1, rest.2)

/-- The sampling loop: draw the requested number of points, each by a
categorical draw over the weights followed by the in-bin jitter. -/
def sampleLoop (indices : List (List ℕ)) (counts : List ℚ)
    (edges : List (List ℚ)) : ℕ → RNG → List (List ℚ) × RNG
  | 0, r => ([], r)
  | Nat.succ m, r =>
    let p := RNG.next r
    let j := catIndex counts (p.1 * counts.sum)
    let pt := samplePoint edges (indices.getD j []) p.2
    let rest := sampleLoop indices counts edges m pt.2
    (pt.1 :: rest.1, rest.2)

/-- Modelled from the spec: per-dimension bin metadata accepted by the
Inverse Sampler's entry points — either bin-center coordinates (length `k`)
or bin edges (length `k + 1`). -/
inductive BinMeta where
  | coords (cs : List ℚ)
  | edges (es : List ℚ)

/-- Modelled from the spec: reconstruction of bin edges from bin-center
coordinates — interior edges are midpoints of consecutive centers and the two
outer edges extrapolate the outermost half-widths. -/
def edges_from_coords : List ℚ → List ℚ
  | [] => []
  | [c] => [c, c]
  | c0 :: c1 :: rest =>
    (c0 - (c1 - c0) / 2) ::
      (midpoints (c0 :: c1 :: rest) ++
        [(c1 :: rest).getLastD c1 +
          ((c1 :: rest).getLastD c1 - (c0 :: c1 :: rest).getD rest.length 0) / 2])

/-- Resolve one dimension's bin metadata into an edge sequence. -/
def resolveMeta : BinMeta → List ℚ
  | .coords cs => edges_from_coords cs
  | .edges es => es

/-- Modelled from the spec: the sparse entry point of the Inverse Sampler
(`psdist.image.sample_sparse_hist` is not included under src).  Negative
counts and an empty distribution are detected eagerly, before any sample is
produced; otherwise the requested number of points is drawn. -/
def sample_sparse_hist (indices : List (List ℕ)) (counts : List ℚ)
    (meta : List BinMeta) (m : ℕ) (r : RNG) :
    Except SampleError (List (List ℚ)) :=
  if counts.any (fun c => decide (c < 0)) then .error .invalidHistogram
  else if counts.sum ≤ 0 then .error .emptyDistribution
  else .ok (sampleLoop indices counts (meta.map resolveMeta) m r).1

/-- Modelled from the spec: the dense entry point of the Inverse Sampler
(`psdist.image.sample_hist` is not included under src) — flattens the dense
histogram into its multi-index list and weight vector and defers to the
sparse entry point. -/
def sample_hist (hist : List (List ℕ × ℕ)) (meta : List BinMeta) (m : ℕ)
    (r : RNG) : Except SampleError (List (List ℚ)) :=
  sample_sparse_hist (hist.map (fun e => e.1))
    (hist.map (fun e => (e.2 : ℚ))) meta m r

/-- The number of points of a Point Set that are in range of the edges. -/
def inRangeCount (points : List (List ℚ)) (edges : List (List ℚ)) : ℕ :=
  (points.filter (fun p => (pointBinIndex edges p).isSome)).length

/-! ### List helpers -/

/-- Entries of a strictly increasing list are monotone in the index. -/
lemma sorted_getD_le (l : List ℚ) (hl : l.Pairwise (· < ·)) (i j : ℕ)
    (hij : i ≤ j) (hj : j < l.length) : l.getD i 0 ≤ l.getD j 0 := by
  rcases Nat.eq_or_lt_of_le hij with rfl | hlt
  · exact le_refl _
  · have hi : i < l.length := lt_trans hlt hj
    rw [List.getD_eq_getElem _ _ hi, List.getD_eq_getElem _ _ hj]
    exact le_of_lt (List.pairwise_iff_getElem.mp hl i j hi hj hlt)

/-- Adjacent entries of a strictly increasing list are strictly ordered. -/
lemma sorted_getD_lt_succ (l : List ℚ) (hl : l.Pairwise (· < ·)) (i : ℕ)
    (hi : i + 1 < l.length) : l.getD i 0 < l.getD (i + 1) 0 := by
  have hi0 : i < l.length := Nat.lt_of_succ_lt hi
  rw [List.getD_eq_getElem _ _ hi0, List.getD_eq_getElem _ _ hi]
  exact List.pairwise_iff_getElem.mp hl i (i + 1) hi0 hi (Nat.lt_succ_self i)

/-- The last-with-default entry of a nonempty list is its entry at the final
index. -/
lemma getLastD_eq_getD :
    ∀ (l : List ℚ), l ≠ [] → l.getLastD 0 = l.getD (l.length - 1) 0
  | [], h => absurd rfl h
  | [a], _ => rfl
  | a :: b :: rest, _ => by
    have ih := getLastD_eq_getD (b :: rest) (by simp)
    simp only [List.getLastD_cons] at ih ⊢
    have hlen : (a :: b :: rest).length - 1 = (b :: rest).length - 1 + 1 := by
      simp [Nat.succ_sub_one]
    rw [hlen, List.getD_cons_succ]
    simpa using ih

/-- The midpoint list has the midpoint of consecutive edges at each index. -/
lemma midpoints_getD :
    ∀ (es : List ℚ) (i : ℕ), i + 1 < es.length →
      (midpoints es).getD i 0 = (es.getD i 0 + es.getD (i + 1) 0) / 2
  | [], _, h => by simp at h
  | [_], _, h => by simp at h
  | e0 :: e1 :: rest, 0, _ => by simp [midpoints]
  | e0 :: e1 :: rest, Nat.succ k, h => by
    have ih := midpoints_getD (e1 :: rest) k (by simpa using h)
    simpa [midpoints] using ih

/-! ### Unfolding lemmas for the binning rule -/

lemma binIndex_pair (e0 e1 x : ℚ) :
    binIndex [e0, e1] x =
      if x < e0 then none else if x ≤ e1 then some 0 else none := rfl

lemma binIndex_cons₃ (e0 e1 e2 : ℚ) (rest : List ℚ) (x : ℚ) :
    binIndex (e0 :: e1 :: e2 :: rest) x =
      if x < e0 then none
      else if x < e1 then some 0
      else (binIndex (e1 :: e2 :: rest) x).map (· + 1) := rfl

/-- A bin index returned by the binning rule is always a valid bin of the
grid: `i + 1 < edges.length`, i.e. `i < k`. -/
lemma binIndex_lt_length :
    ∀ (e : List ℚ) (x : ℚ) (i : ℕ), binIndex e x = some i → i + 1 < e.length
  | [], x, i, h => by simp [binIndex] at h
  | [_], x, i, h => by simp [binIndex] at h
  | [e0, e1], x, i, h => by
    rw [binIndex_pair] at h
    simp only [List.length_cons, List.length_nil]
    split_ifs at h
    all_goals
      first
        | exact Option.noConfusion h
        | (simp only [Option.some.injEq] at h; omega)
  | e0 :: e1 :: e2 :: rest, x, i, h => by
    rw [binIndex_cons₃] at h
    simp only [List.length_cons]
    split_ifs at h
    all_goals
      first
        | exact Option.noConfusion h
        | (simp only [Option.some.injEq] at h; omega)
        | (rw [Option.map_eq_some'] at h
           obtain ⟨a, ha, rfl⟩ := h
           have := binIndex_lt_length (e1 :: e2 :: rest) x a ha
           simp only [List.length_cons] at this
           omega)

/-- Characterization of the binning rule on strictly increasing edges: bin
`i` receives coordinate `x` exactly when `edges[i] ≤ x < edges[i+1]`, except
for the final bin, which is closed on both ends. -/
lemma binIndex_iff :
    ∀ (e : List ℚ), e.Pairwise (· < ·) → ∀ (x : ℚ) (i : ℕ),
      (binIndex e x = some i ↔
        i + 1 < e.length ∧ e.getD i 0 ≤ x ∧
          (if i + 2 < e.length then x < e.getD (i + 1) 0
           else x ≤ e.getD (i + 1) 0))
  | [], _, x, i => by simp [binIndex]
  | [_], _, x, i => by simp [binIndex]
  | [e0, e1], he, x, i => by
    rcases i with _ | j
    · rw [binIndex_pair, if_neg (show ¬(0 + 2 < ([e0, e1] : List ℚ).length) by simp)]
      simp only [List.length_cons, List.length_nil, List.getD_cons_zero,
        List.getD_cons_succ]
      by_cases h1 : x < e0
      · rw [if_pos h1]
        constructor
        · intro h
          exact absurd h (by simp)
        · rintro ⟨-, hle, -⟩
          linarith
      · rw [if_neg h1]
        by_cases h2 : x ≤ e1
        · rw [if_pos h2]
          exact iff_of_true rfl ⟨by omega, not_lt.mp h1, h2⟩
        · rw [if_neg h2]
          constructor
          · intro h
            exact absurd h (by simp)
          · rintro ⟨-, -, hle⟩
            exact absurd hle h2
    · rw [binIndex_pair]
      constructor
      · intro h
        split_ifs at h
        simp at h
      · rintro ⟨hlen, -, -⟩
        simp only [List.length_cons, List.length_nil] at hlen
        omega
  | e0 :: e1 :: e2 :: rest, he, x, i => by
    have he' : (e1 :: e2 :: rest).Pairwise (· < ·) :=
      (List.pairwise_cons.mp he).2
    have h01 : e0 < e1 := (List.pairwise_cons.mp he).1 e1 (by simp)
    have ih := binIndex_iff (e1 :: e2 :: rest) he' x
    rcases i with _ | j
    · rw [binIndex_cons₃,
        if_pos (show 0 + 2 < (e0 :: e1 :: e2 :: rest).length by simp)]
      simp only [List.length_cons, List.getD_cons_zero, List.getD_cons_succ]
      by_cases h1 : x < e0
      · rw [if_pos h1]
        constructor
        · intro h
          exact absurd h (by simp)
        · rintro ⟨-, hle, -⟩
          linarith
      · rw [if_neg h1]
        by_cases h2 : x < e1
        · rw [if_pos h2]
          exact iff_of_true rfl ⟨by omega, not_lt.mp h1, h2⟩
        · rw [if_neg h2]
          constructor
          · intro h
            rw [Option.map_eq_some'] at h
            obtain ⟨a, -, ha⟩ := h
            omega
          · rintro ⟨-, -, hlt⟩
            exact absurd hlt h2
    · rw [binIndex_cons₃]
      have hgoal :
          ((binIndex (e1 :: e2 :: rest) x).map (· + 1) = some (j + 1)) ↔
            binIndex (e1 :: e2 :: rest) x = some j := by
        rw [Option.map_eq_some']
        constructor
        · rintro ⟨a, ha, haj⟩
          have : a = j := by omega
          subst this
          exact ha
        · intro h
          exact ⟨j, h, rfl⟩
      have he1x : (j + 1 + 1 < (e0 :: e1 :: e2 :: rest).length ∧
          (e0 :: e1 :: e2 :: rest).getD (j + 1) 0 ≤ x) → e1 ≤ x := by
        rintro ⟨hlen, hle⟩
        simp only [List.length_cons] at hlen
        simp only [List.getD_cons_succ] at hle
        have hj : j < (e1 :: e2 :: rest).length := by
          simp only [List.length_cons]
          omega
        have := sorted_getD_le (e1 :: e2 :: rest) he' 0 j (Nat.zero_le j) hj
        simp only [List.getD_cons_zero] at this
        linarith
      by_cases h1 : x < e0
      · rw [if_pos h1]
        constructor
        · intro h
          exact absurd h (by simp)
        · rintro ⟨hlen, hle, -⟩
          have := he1x ⟨hlen, hle⟩
          linarith
      · rw [if_neg h1]
        by_cases h2 : x < e1
        · rw [if_pos h2]
          constructor
          · intro h
            simp at h
          · rintro ⟨hlen, hle, -⟩
            have := he1x ⟨hlen, hle⟩
            linarith
        · rw [if_neg h2, hgoal, ih j]
          simp only [List.length_cons, List.getD_cons_succ]
          constructor
          · rintro ⟨hlen, hle, hext⟩
            refine ⟨by omega, hle, ?_⟩
            by_cases hc : j + 2 < rest.length + 1 + 1
            · rw [if_pos hc] at hext
              rw [if_pos (show j + 1 + 2 < rest.length + 1 + 1 + 1 by omega)]
              exact hext
            · rw [if_neg hc] at hext
              rw [if_neg (show ¬j + 1 + 2 < rest.length + 1 + 1 + 1 by omega)]
              exact hext
          · rintro ⟨hlen, hle, hext⟩
            refine ⟨by omega, hle, ?_⟩
            by_cases hc : j + 2 < rest.length + 1 + 1
            · rw [if_pos (show j + 1 + 2 < rest.length + 1 + 1 + 1 by omega)]
                at hext
              rw [if_pos hc]
              exact hext
            · rw [if_neg (show ¬j + 1 + 2 < rest.length + 1 + 1 + 1 by omega)]
                at hext
              rw [if_neg hc]
              exact hext

/-- C3: for every dimension, the Binner assigns a point with coordinate `x`
to bin `i` exactly when `edges[i] ≤ x < edges[i+1]`, except for the final
bin, which is closed on both ends; in particular, with edges `[0,1,2,3]` in
each of two dimensions, the point `(3,3)` falls in bin `(2,2)` and increments
its count rather than being dropped. -/
theorem binning_rule_boundary (e : List ℚ) (he : e.Pairwise (· < ·))
    (x : ℚ) (i : ℕ) :
    (binIndex e x = some i ↔
      i + 1 < e.length ∧ e.getD i 0 ≤ x ∧
        (if i + 2 < e.length then x < e.getD (i + 1) 0
         else x ≤ e.getD (i + 1) 0)) ∧
    pointBinIndex [[0, 1, 2, 3], [0, 1, 2, 3]] [3, 3] = some [2, 2] ∧
    histCount [[(3 : ℚ), 3]] [[0, 1, 2, 3], [0, 1, 2, 3]] [2, 2] = 1 := by
  refine ⟨binIndex_iff e he x i, ?_, ?_⟩ <;> rfl

/-- witness for C3 at concrete input -/
theorem binning_rule_boundary_witness :
    binIndex [(0 : ℚ), 1, 2, 3] 3 = some 2 := by
  have h := binning_rule_boundary [(0 : ℚ), 1, 2, 3] (by norm_num) 3 2
  exact (h.1).mpr (by norm_num)

/-! ### C8, C9: Binner output shape and metadata -/

/-! ### C7: out-of-range points are silently dropped -/

/-- On strictly increasing edges, a coordinate below the first edge or above
the last edge is assigned to no bin. -/
lemma binIndex_none_of_out :
    ∀ (e : List ℚ), e.Pairwise (· < ·) → ∀ x : ℚ,
      (x < e.getD 0 0 ∨ e.getLastD 0 < x) → binIndex e x = none
  | [], _, x, _ => rfl
  | [_], _, x, _ => rfl
  | [e0, e1], he, x, hout => by
    have h01 : e0 < e1 := (List.pairwise_cons.mp he).1 e1 (by simp)
    rw [binIndex_pair]
    rcases hout with h | h
    · simp only [List.getD_cons_zero] at h
      rw [if_pos h]
    · simp only [List.getLastD_cons, List.getLastD_nil] at h
      split_ifs with h1 h2
      · rfl
      · linarith
      · rfl
  | e0 :: e1 :: e2 :: rest, he, x, hout => by
    have he' : (e1 :: e2 :: rest).Pairwise (· < ·) :=
      (List.pairwise_cons.mp he).2
    have h01 : e0 < e1 := (List.pairwise_cons.mp he).1 e1 (by simp)
    rw [binIndex_cons₃]
    rcases hout with h | h
    · simp only [List.getD_cons_zero] at h
      rw [if_pos h]
    · have hlast : (e0 :: e1 :: e2 :: rest).getLastD 0 =
          (e1 :: e2 :: rest).getLastD 0 := by
        simp [List.getLastD_cons]
      rw [hlast] at h
      have he1last : e1 ≤ (e1 :: e2 :: rest).getLastD 0 := by
        rw [getLastD_eq_getD (e1 :: e2 :: rest) (by simp)]
        have := sorted_getD_le (e1 :: e2 :: rest) he' 0
          ((e1 :: e2 :: rest).length - 1) (Nat.zero_le _)
          (by simp only [List.length_cons]; omega)
        simpa using this
      have hrec := binIndex_none_of_out (e1 :: e2 :: rest) he' x (Or.inr h)
      rw [if_neg (by linarith), if_neg (by linarith), hrec]
      rfl

/-- The multi-index assigned to a point determines its per-dimension bin
index componentwise. -/
lemma pointBinIndex_component :
    ∀ (es : List (List ℚ)) (p : List ℚ) (idx : List ℕ),
      pointBinIndex es p = some idx → ∀ j, j < es.length →
        binIndex (es.getD j []) (p.getD j 0) = some (idx.getD j 0)
  | [], [], idx, h, j, hj => by simp at hj
  | [], _ :: _, idx, h, j, hj => by simp [pointBinIndex] at h
  | _ :: _, [], idx, h, j, hj => by simp [pointBinIndex] at h
  | es0 :: restE, x :: restX, idx, h, j, hj => by
    simp only [pointBinIndex] at h
    cases hbi : binIndex es0 x with
    | none =>
      rw [hbi] at h
      exact Option.noConfusion h
    | some i =>
      cases hpb : pointBinIndex restE restX with
      | none =>
        rw [hbi, hpb] at h
        exact Option.noConfusion h
      | some is =>
        rw [hbi, hpb] at h
        simp only [Option.some.injEq] at h
        subst h
        rcases j with _ | j'
        · simpa using hbi
        · simp only [List.getD_cons_succ]
          exact pointBinIndex_component restE restX is hpb j'
            (by simpa using Nat.lt_of_succ_lt_succ (by simpa using hj))

/-- C7: a point lying outside `[edges[0], edges[-1]]` in some dimension is
excluded from every bin of the Dense Histogram, and the Binner completes
normally: the point is silently dropped and every cell count is unchanged. -/
theorem out_of_range_point_dropped (es : List (List ℚ)) (p : List ℚ)
    (hsorted : ∀ e ∈ es, e.Pairwise (· < ·))
    (j : ℕ) (hj : j < es.length)
    (hout : p.getD j 0 < (es.getD j []).getD 0 0 ∨
      (es.getD j []).getLastD 0 < p.getD j 0) :
    pointBinIndex es p = none ∧
    (∀ points idx, histCount (p :: points) es idx = histCount points es idx) ∧
    (∀ points, (histogram (p :: points) es).hist = (histogram points es).hist) := by
  have hj_mem : es.getD j [] ∈ es := by
    rw [List.getD_eq_getElem _ _ hj]
    exact List.getElem_mem _
  have hnone : binIndex (es.getD j []) (p.getD j 0) = none :=
    binIndex_none_of_out _ (hsorted _ hj_mem) _ hout
  have hpb : pointBinIndex es p = none := by
    cases hcase : pointBinIndex es p with
    | none => rfl
    | some idx =>
      have hc := pointBinIndex_component es p idx hcase j hj
      rw [hnone] at hc
      exact Option.noConfusion hc
  have hcount : ∀ points idx,
      histCount (p :: points) es idx = histCount points es idx := by
    intro points idx
    simp [histCount, List.filter_cons, hpb]
  refine ⟨hpb, hcount, ?_⟩
  intro points
  simp only [histogram, denseHistogram]
  apply List.map_congr_left
  intro idx _
  rw [hcount points idx]

/-- witness for C7 at concrete input -/
theorem out_of_range_point_dropped_witness :
    pointBinIndex [[(0 : ℚ), 1]] [5] = none := by
  have h := out_of_range_point_dropped [[(0 : ℚ), 1]] [5]
    (by intro e he; simp at he; subst he; norm_num) 0 (by norm_num)
    (by right; norm_num)
  exact h.1

/-! ### C1: sparse/dense consistency -/

/-- The multi-index of an in-range point is a valid grid index. -/
lemma mem_allIndices_of_pointBinIndex :
    ∀ (es : List (List ℚ)) (p : List ℚ) (idx : List ℕ),
      pointBinIndex es p = some idx → idx ∈ allIndices (shape es)
  | [], [], idx, h => by
    simp only [pointBinIndex, Option.some.injEq] at h
    subst h
    simp [shape, allIndices]
  | [], _ :: _, idx, h => by simp [pointBinIndex] at h
  | _ :: _, [], idx, h => by simp [pointBinIndex] at h
  | es0 :: restE, x :: restX, idx, h => by
    simp only [pointBinIndex] at h
    cases hbi : binIndex es0 x with
    | none =>
      rw [hbi] at h
      exact Option.noConfusion h
    | some i =>
      cases hpb : pointBinIndex restE restX with
      | none =>
        rw [hbi, hpb] at h
        exact Option.noConfusion h
      | some is =>
        rw [hbi, hpb] at h
        simp only [Option.some.injEq] at h
        subst h
        have hi := binIndex_lt_length es0 x i hbi
        have hmem := mem_allIndices_of_pointBinIndex restE restX is hpb
        simp only [shape, List.map_cons, allIndices, List.mem_flatMap,
          List.mem_range, List.mem_map]
        refine ⟨i, by omega, is, ?_, rfl⟩
        simpa [shape] using hmem

/-- The grid index list has no duplicates. -/
lemma allIndices_nodup : ∀ (ks : List ℕ), (allIndices ks).Nodup
  | [] => by simp [allIndices]
  | k :: ks => by
    simp only [allIndices]
    refine List.nodup_flatMap.mpr ⟨?_, ?_⟩
    · intro i _
      exact (allIndices_nodup ks).map
        (fun a b hab => by simpa using congrArg List.tail hab)
    · have hr : (List.range k).Nodup := List.nodup_range k
      refine List.Pairwise.imp ?_ hr
      intro a b hab
      intro z hza hzb
      simp only [List.mem_map] at hza hzb
      obtain ⟨is1, -, h1⟩ := hza
      obtain ⟨is2, -, h2⟩ := hzb
      apply hab
      have := h1.trans h2.symm
      simpa using congrArg List.head? this

lemma sum_map_add {α : Type} (A : List α) (f g : α → ℕ) :
    (A.map (fun a => f a + g a)).sum = (A.map f).sum + (A.map g).sum := by
  induction A with
  | nil => rfl
  | cons a A ih =>
    simp only [List.map_cons, List.sum_cons, ih]
    omega

lemma sum_map_ite_one {α : Type} [DecidableEq α] :
    ∀ (A : List α) (b : α),
      (A.map (fun a => if a = b then 1 else 0)).sum = A.count b
  | [], b => by simp
  | a :: A, b => by
    simp only [List.map_cons, List.sum_cons, List.count_cons,
      sum_map_ite_one A b]
    by_cases h : a = b
    · rw [if_pos h, if_pos (beq_iff_eq.mpr h)]
      omega
    · rw [if_neg h, if_neg (by simpa using h)]
      omega

/-- Filtering away zero-count cells preserves the total count. -/
lemma sum_filter_nonzero (l : List (List ℕ × ℕ)) :
    ((l.filter (fun e => e.2 ≠ 0)).map (fun e => e.2)).sum =
      (l.map (fun e => e.2)).sum := by
  induction l with
  | nil => rfl
  | cons a l ih =>
    rw [List.filter_cons]
    by_cases h : a.2 = 0
    · rw [if_neg (by simp [h]), List.map_cons, List.sum_cons, ih, h]
      omega
    · rw [if_pos (by simpa using h)]
      simp only [List.map_cons, List.sum_cons, ih]

lemma histCount_cons (p : List ℚ) (points : List (List ℚ))
    (es : List (List ℚ)) (idx : List ℕ) :
    histCount (p :: points) es idx =
      (if pointBinIndex es p = some idx then 1 else 0) +
        histCount points es idx := by
  simp only [histCount, List.filter_cons]
  by_cases h : pointBinIndex es p = some idx
  · rw [if_pos (by simpa using h), if_pos h]
    simp only [List.length_cons]
    omega
  · rw [if_neg (by simpa using h), if_neg h]
    simp

/-- A multi-index outside the grid receives no point. -/
lemma histCount_eq_zero_of_not_mem (points : List (List ℚ))
    (es : List (List ℚ)) (idx : List ℕ)
    (h : idx ∉ allIndices (shape es)) : histCount points es idx = 0 := by
  rw [histCount, List.length_eq_zero]
  rw [List.filter_eq_nil_iff]
  intro p _ hp
  simp only [decide_eq_true_eq] at hp
  exact h (mem_allIndices_of_pointBinIndex es p idx hp)

/-- Sum of the Dense Histogram equals the number of in-range points. -/
lemma denseSum_eq_inRangeCount (points : List (List ℚ))
    (es : List (List ℚ)) :
    ((denseHistogram points es).map (fun e => e.2)).sum =
      inRangeCount points es := by
  induction points with
  | nil =>
    simp only [denseHistogram, List.map_map, inRangeCount, List.filter_nil,
      List.length_nil]
    apply List.sum_eq_zero
    intro x hx
    simp only [List.mem_map, Function.comp] at hx
    obtain ⟨idx, -, rfl⟩ := hx
    simp [histCount]
  | cons p ps ih =>
    have hmap : (denseHistogram (p :: ps) es).map (fun e => e.2) =
        (allIndices (shape es)).map (fun idx =>
          (if pointBinIndex es p = some idx then 1 else 0) +
            histCount ps es idx) := by
      simp only [denseHistogram, List.map_map]
      apply List.map_congr_left
      intro idx _
      exact histCount_cons p ps es idx
    rw [hmap, sum_map_add]
    have hsecond : ((allIndices (shape es)).map
        (fun idx => histCount ps es idx)).sum =
        ((denseHistogram ps es).map (fun e => e.2)).sum := by
      simp only [denseHistogram, List.map_map]
      rfl
    rw [hsecond, ih]
    have hfirst : ((allIndices (shape es)).map (fun idx =>
        if pointBinIndex es p = some idx then 1 else 0)).sum =
        if (pointBinIndex es p).isSome then 1 else 0 := by
      cases hpb : pointBinIndex es p with
      | none => simp
      | some idx0 =>
        have heq : (fun idx => if some idx0 = some idx then (1 : ℕ) else 0) =
            fun idx => if idx = idx0 then 1 else 0 := by
          funext idx
          simp [eq_comm]
        simp only [heq, sum_map_ite_one]
        rw [List.count_eq_one_of_mem (allIndices_nodup _)
          (mem_allIndices_of_pointBinIndex es p idx0 hpb)]
        simp
    rw [hfirst]
    simp only [inRangeCount, List.filter_cons]
    cases hpb : pointBinIndex es p with
    | none => simp [hpb, inRangeCount]
    | some idx0 => simp [hpb, inRangeCount, Nat.add_comm]

/-- Lookup in a keyed map restricted to nonzero values recovers the value. -/
lemma sparseGet_filter_keyed_map (A : List (List ℕ)) (f : List ℕ → ℕ)
    (idx : List ℕ) (hA : idx ∈ A) :
    sparseGet ((A.map (fun a => (a, f a))).filter (fun e => e.2 ≠ 0)) idx =
      f idx := by
  unfold sparseGet
  cases hf : ((A.map (fun a => (a, f a))).filter
      (fun e => e.2 ≠ 0)).find? (fun e => e.1 == idx) with
  | none =>
    by_cases h0 : f idx = 0
    · exact h0.symm
    · exfalso
      have hmem : (idx, f idx) ∈
          (A.map (fun a => (a, f a))).filter (fun e => e.2 ≠ 0) := by
        rw [List.mem_filter]
        refine ⟨List.mem_map.mpr ⟨idx, hA, rfl⟩, by simpa using h0⟩
      have := List.find?_eq_none.mp hf _ hmem
      simp at this
  | some e =>
    have hpred := List.find?_some hf
    have hmem := List.mem_of_find?_eq_some hf
    rw [List.mem_filter] at hmem
    obtain ⟨a, -, hae⟩ := List.mem_map.mp hmem.1
    have h1 : e.1 = idx := by simpa using hpred
    have h2 : a = idx := by
      have := congrArg Prod.fst hae
      simpa [h1] using this
    have hval := congrArg Prod.snd hae
    simp only at hval
    show e.2 = f idx
    rw [← hval, h2]

/-- Lookup in a keyed map recovers the value. -/
lemma sparseGet_keyed_map (A : List (List ℕ)) (f : List ℕ → ℕ)
    (idx : List ℕ) (hA : idx ∈ A) :
    sparseGet (A.map (fun a => (a, f a))) idx = f idx := by
  unfold sparseGet
  cases hf : (A.map (fun a => (a, f a))).find? (fun e => e.1 == idx) with
  | none =>
    exfalso
    have hmem : (idx, f idx) ∈ A.map (fun a => (a, f a)) :=
      List.mem_map.mpr ⟨idx, hA, rfl⟩
    have := List.find?_eq_none.mp hf _ hmem
    simp at this
  | some e =>
    have hpred := List.find?_some hf
    have hmem := List.mem_of_find?_eq_some hf
    obtain ⟨a, -, hae⟩ := List.mem_map.mp hmem
    have h1 : e.1 = idx := by simpa using hpred
    have h2 : a = idx := by
      have := congrArg Prod.fst hae
      simpa [h1] using this
    have hval := congrArg Prod.snd hae
    simp only at hval
    show e.2 = f idx
    rw [← hval, h2]

/-- Lookup of a key outside the key list gives the default. -/
lemma sparseGet_eq_zero_of_not_mem (A : List (List ℕ)) (f : List ℕ → ℕ)
    (idx : List ℕ) (hA : idx ∉ A) :
    sparseGet ((A.map (fun a => (a, f a))).filter (fun e => e.2 ≠ 0)) idx
      = 0 := by
  unfold sparseGet
  cases hf : ((A.map (fun a => (a, f a))).filter
      (fun e => e.2 ≠ 0)).find? (fun e => e.1 == idx) with
  | none => rfl
  | some e =>
    exfalso
    have hpred := List.find?_some hf
    have hmem := List.mem_of_find?_eq_some hf
    rw [List.mem_filter] at hmem
    obtain ⟨a, ha, hae⟩ := List.mem_map.mp hmem.1
    have h1 : e.1 = idx := by simpa using hpred
    have h2 : a = idx := by
      have := congrArg Prod.fst hae
      simpa [h1] using this
    exact hA (h2 ▸ ha)

/-- C1: the Sparse Histogram agrees cell-wise with the Dense Histogram over
the same points and edges — at every multi-index the dense count equals the
sparse count (0 when the index is omitted) — and the sparse total equals the
dense total, which equals the number of in-range points. -/
theorem sparse_dense_equivalence (points : List (List ℚ))
    (edges : List (List ℚ)) :
    (∀ idx, sparseGet (sparse_histogram points edges) idx =
      histCount points edges idx) ∧
    (∀ idx, idx ∈ allIndices (shape edges) →
      sparseGet (denseHistogram points edges) idx =
        histCount points edges idx) ∧
    ((sparse_histogram points edges).map (fun e => e.2)).sum =
      ((denseHistogram points edges).map (fun e => e.2)).sum ∧
    ((denseHistogram points edges).map (fun e => e.2)).sum =
      inRangeCount points edges := by
  refine ⟨?_, ?_, ?_, ?_⟩
  · intro idx
    by_cases hA : idx ∈ allIndices (shape edges)
    · exact sparseGet_filter_keyed_map (allIndices (shape edges))
        (histCount points edges) idx hA
    · rw [histCount_eq_zero_of_not_mem points edges idx hA]
      exact sparseGet_eq_zero_of_not_mem (allIndices (shape edges))
        (histCount points edges) idx hA
  · intro idx hA
    exact sparseGet_keyed_map (allIndices (shape edges))
      (histCount points edges) idx hA
  · exact sum_filter_nonzero _
  · exact denseSum_eq_inRangeCount points edges

/-- witness for C1 at concrete input -/
theorem sparse_dense_equivalence_witness :
    sparseGet (denseHistogram [[(0 : ℚ)], [(1 : ℚ)], [(1 : ℚ)]]
      [[0, 1, 2]]) [1] = 2 := by
  have h := (sparse_dense_equivalence
    [[(0 : ℚ)], [(1 : ℚ)], [(1 : ℚ)]] [[0, 1, 2]]).2.1 [1]
    (by norm_num [allIndices, shape])
  rw [h]
  rfl

/-- C8: binning an empty Point Set with any Bin Edges succeeds and produces a
Dense Histogram of the requested shape in which every cell is zero; in
particular zero points with edges `[0, 1, 2]` in one dimension yield the
histogram `[0, 0]`. -/
theorem empty_points_all_zero_histogram (edges : List (List ℚ)) :
    (histogram [] edges).hist =
        (allIndices (shape edges)).map (fun idx => (idx, 0)) ∧
    (histogram [] [[(0 : ℚ), 1, 2]]).hist = [([0], 0), ([1], 0)] := by
  constructor
  · simp [histogram, denseHistogram, histCount]
  · rfl

/-- C9: the Binner's result includes, alongside the Dense Histogram, the
exact per-dimension bin edges that were used and the per-dimension bin-center
coordinates, the midpoint of each bin interval. -/
theorem binner_returns_edges_and_centers (points : List (List ℚ))
    (edges : List (List ℚ)) :
    (histogram points edges).edges = edges ∧
    (histogram points edges).hist = denseHistogram points edges ∧
    (∀ j i, i + 1 < (edges.getD j []).length →
      ((histogram points edges).coords.getD j []).getD i 0 =
        ((edges.getD j []).getD i 0 + (edges.getD j []).getD (i + 1) 0) / 2) := by
  refine ⟨rfl, rfl, ?_⟩
  intro j i hi
  by_cases hj : j < edges.length
  · have hmap : (edges.map coords_from_edges).getD j [] =
        coords_from_edges (edges.getD j []) := by
      rw [List.getD_eq_getElem _ _ (by simpa using hj),
        List.getD_eq_getElem _ _ hj, List.getElem_map]
    show ((edges.map coords_from_edges).getD j []).getD i 0 = _
    rw [hmap]
    exact midpoints_getD (edges.getD j []) i hi
  · have : edges.getD j [] = ([] : List ℚ) := by
      rw [List.getD_eq_getElem?_getD, List.getElem?_eq_none (by omega)]
      rfl
    rw [this] at hi
    simp at hi

/-- witness for C9 at concrete input -/
theorem binner_returns_edges_and_centers_witness :
    ((histogram [] [[(0 : ℚ), 1, 2]]).coords.getD 0 []).getD 0 0 = 1 / 2 := by
  have h := (binner_returns_edges_and_centers [] [[(0 : ℚ), 1, 2]]).2.2 0 0
    (by simp)
  rw [h]
  norm_num

/-! ### Sampler helpers -/

lemma samplePoint_length :
    ∀ (es : List (List ℚ)) (idx : List ℕ) (r : RNG),
      (samplePoint es idx r).1.length = es.length
  | [], _, _ => rfl
  | e :: restE, idx, r => by
    simp [samplePoint, samplePoint_length restE idx.tail]

lemma samplePoint_rng :
    ∀ (es : List (List ℚ)) (idx : List ℕ) (s : ℕ → ℚ) (p : ℕ),
      (samplePoint es idx ⟨s, p⟩).2 = ⟨s, p + es.length⟩
  | [], _, s, p => by simp [samplePoint]
  | e :: restE, idx, s, p => by
    simp only [samplePoint, RNG.next, List.length_cons,
      samplePoint_rng restE idx.tail s (p + 1)]
    congr 1
    omega

lemma sampleLoop_length (indices : List (List ℕ)) (counts : List ℚ)
    (es : List (List ℚ)) :
    ∀ (m : ℕ) (r : RNG), (sampleLoop indices counts es m r).1.length = m
  | 0, _ => rfl
  | Nat.succ m, r => by
    simp [sampleLoop, sampleLoop_length indices counts es m]

lemma sampleLoop_points_length (indices : List (List ℕ)) (counts : List ℚ)
    (es : List (List ℚ)) :
    ∀ (m : ℕ) (r : RNG) (q : List ℚ),
      q ∈ (sampleLoop indices counts es m r).1 → q.length = es.length
  | 0, r, q, hq => by simp [sampleLoop] at hq
  | Nat.succ m, r, q, hq => by
    simp only [sampleLoop, List.mem_cons] at hq
    rcases hq with rfl | hq
    · exact samplePoint_length es _ _
    · exact sampleLoop_points_length indices counts es m _ q hq

/-- The sparse sampler succeeds whenever the counts are nonnegative with
positive total, returning the sampling loop's output. -/
lemma sample_sparse_hist_ok (indices : List (List ℕ)) (counts : List ℚ)
    (meta : List BinMeta) (m : ℕ) (r : RNG)
    (hn : ∀ c ∈ counts, 0 ≤ c) (hs : 0 < counts.sum) :
    sample_sparse_hist indices counts meta m r =
      .ok (sampleLoop indices counts (meta.map resolveMeta) m r).1 := by
  have hany : counts.any (fun c => decide (c < 0)) = false := by
    rw [List.any_eq_false]
    intro c hc
    simpa using not_lt.mpr (hn c hc)
  unfold sample_sparse_hist
  rw [if_neg (by simp [hany]), if_neg (not_le.mpr hs)]

/-- C2: for every histogram with positive total count and requested sample
count `m`, the Inverse Sampler — the sparse entry point and the dense entry
point alike — returns a Sample Set containing exactly `m` points. -/
theorem sampler_returns_m_points (indices : List (List ℕ)) (counts : List ℚ)
    (meta : List BinMeta) (m : ℕ) (r : RNG)
    (hn : ∀ c ∈ counts, 0 ≤ c) (hs : 0 < counts.sum) :
    (∃ xs, sample_sparse_hist indices counts meta m r = .ok xs ∧
      xs.length = m) ∧
    (∀ hist : List (List ℕ × ℕ),
      hist.map (fun e => (e.2 : ℚ)) = counts →
      ∃ xs, sample_hist hist meta m r = .ok xs ∧ xs.length = m) := by
  constructor
  · exact ⟨_, sample_sparse_hist_ok indices counts meta m r hn hs,
      sampleLoop_length _ _ _ m r⟩
  · intro hist hh
    unfold sample_hist
    rw [hh]
    exact ⟨_, sample_sparse_hist_ok _ counts meta m r hn hs,
      sampleLoop_length _ _ _ m r⟩

/-- witness for C2 at concrete input -/
theorem sampler_returns_m_points_witness :
    ∃ xs, sample_sparse_hist [[0]] [1] [BinMeta.edges [0, 1]] 3
        ⟨fun _ => 1 / 2, 0⟩ = .ok xs ∧ xs.length = 3 := by
  have h := sampler_returns_m_points [[0]] [1] [BinMeta.edges [0, 1]] 3
    ⟨fun _ => 1 / 2, 0⟩ (by intro c hc; simp at hc; simp [hc]) (by norm_num)
  exact h.1

/-- The sparse sampler reports `emptyDistribution` exactly on total zero. -/
lemma sample_sparse_hist_error_iff (indices : List (List ℕ))
    (counts : List ℚ) (meta : List BinMeta) (m : ℕ) (r : RNG)
    (hn : ∀ c ∈ counts, 0 ≤ c) :
    (sample_sparse_hist indices counts meta m r =
      .error .emptyDistribution) ↔ counts.sum = 0 := by
  have hsumnn : 0 ≤ counts.sum := List.sum_nonneg hn
  have hany : counts.any (fun c => decide (c < 0)) = false := by
    rw [List.any_eq_false]
    intro c hc
    simpa using not_lt.mpr (hn c hc)
  unfold sample_sparse_hist
  rw [if_neg (by simp [hany])]
  by_cases h : counts.sum ≤ 0
  · rw [if_pos h]
    exact iff_of_true rfl (le_antisymm h hsumnn)
  · rw [if_neg h]
    exact iff_of_false (by simp) (fun h0 => h (le_of_eq h0))

/-- C4: the Inverse Sampler fails with `EmptyDistributionError` exactly when
the histogram's total count is zero; the check is made before any sample is
produced, so the outcome does not depend on the requested count or on the
random source. -/
theorem empty_distribution_error (indices : List (List ℕ))
    (counts : List ℚ) (meta : List BinMeta)
    (hn : ∀ c ∈ counts, 0 ≤ c) :
    (∀ (m : ℕ) (r : RNG),
      (sample_sparse_hist indices counts meta m r =
        .error .emptyDistribution) ↔ counts.sum = 0) ∧
    (∀ (hist : List (List ℕ × ℕ)) (m : ℕ) (r : RNG),
      hist.map (fun e => (e.2 : ℚ)) = counts →
      ((sample_hist hist meta m r = .error .emptyDistribution) ↔
        counts.sum = 0)) := by
  constructor
  · intro m r
    exact sample_sparse_hist_error_iff indices counts meta m r hn
  · intro hist m r hh
    unfold sample_hist
    rw [hh]
    exact sample_sparse_hist_error_iff _ counts meta m r hn

/-- witness for C4 at concrete input -/
theorem empty_distribution_error_witness :
    sample_sparse_hist [[0]] [0] [BinMeta.edges [0, 1]] 3
      ⟨fun _ => 1 / 2, 0⟩ = .error .emptyDistribution := by
  have h := (empty_distribution_error [[0]] [0] [BinMeta.edges [0, 1]]
    (by intro c hc; simp at hc; simp [hc])).1 3 ⟨fun _ => 1 / 2, 0⟩
  exact h.mpr (by norm_num)

/-! ### C6: explicit random source, reproducibility -/

lemma samplePoint_agree :
    ∀ (es : List (List ℚ)) (idx : List ℕ) (s₁ s₂ : ℕ → ℚ) (p : ℕ),
      (∀ k, k < es.length → s₁ (p + k) = s₂ (p + k)) →
      (samplePoint es idx ⟨s₁, p⟩).1 = (samplePoint es idx ⟨s₂, p⟩).1
  | [], _, _, _, _, _ => rfl
  | e :: restE, idx, s₁, s₂, p, h => by
    have h0 : s₁ p = s₂ p := by simpa using h 0 (by simp)
    have hrest : ∀ k, k < restE.length →
        s₁ (p + 1 + k) = s₂ (p + 1 + k) := by
      intro k hk
      have := h (1 + k) (by simp only [List.length_cons]; omega)
      simpa [Nat.add_assoc, Nat.add_comm 1 k] using this
    simp only [samplePoint, RNG.next]
    rw [h0, samplePoint_agree restE idx.tail s₁ s₂ (p + 1) hrest]

lemma sampleLoop_agree (indices : List (List ℕ)) (counts : List ℚ)
    (es : List (List ℚ)) :
    ∀ (m : ℕ) (s₁ s₂ : ℕ → ℚ) (p : ℕ),
      (∀ k, k < m * (1 + es.length) → s₁ (p + k) = s₂ (p + k)) →
      (sampleLoop indices counts es m ⟨s₁, p⟩).1 =
        (sampleLoop indices counts es m ⟨s₂, p⟩).1
  | 0, _, _, _, _ => rfl
  | Nat.succ m, s₁, s₂, p, h => by
    have hmul : Nat.succ m * (1 + es.length) =
        m * (1 + es.length) + 1 + es.length := by
      rw [Nat.succ_mul]
      omega
    have h0 : s₁ p = s₂ p := by
      have hpos : 0 < Nat.succ m * (1 + es.length) := by omega
      simpa using h 0 hpos
    have hpoint : ∀ k, k < es.length →
        s₁ (p + 1 + k) = s₂ (p + 1 + k) := by
      intro k hk
      have := h (1 + k) (by omega)
      simpa [Nat.add_assoc, Nat.add_comm 1 k] using this
    have hrest : ∀ k, k < m * (1 + es.length) →
        s₁ (p + 1 + es.length + k) = s₂ (p + 1 + es.length + k) := by
      intro k hk
      have := h (1 + es.length + k) (by omega)
      have harg : p + (1 + es.length + k) = p + 1 + es.length + k := by omega
      rwa [harg] at this
    simp only [sampleLoop, RNG.next]
    rw [h0,
      samplePoint_agree es
        (indices.getD (catIndex counts (s₂ p * counts.sum)) [])
        s₁ s₂ (p + 1) hpoint,
      samplePoint_rng, samplePoint_rng,
      sampleLoop_agree indices counts es m s₁ s₂ (p + 1 + es.length) hrest]

/-- The sparse sampler's output depends only on the entropy it consumes. -/
lemma sample_sparse_hist_agree (indices : List (List ℕ)) (counts : List ℚ)
    (meta : List BinMeta) (m : ℕ) (s₁ s₂ : ℕ → ℚ) (p : ℕ)
    (h : ∀ k, k < m * (1 + meta.length) → s₁ (p + k) = s₂ (p + k)) :
    sample_sparse_hist indices counts meta m ⟨s₁, p⟩ =
      sample_sparse_hist indices counts meta m ⟨s₂, p⟩ := by
  have hlen : (meta.map resolveMeta).length = meta.length :=
    List.length_map meta resolveMeta
  unfold sample_sparse_hist
  split_ifs
  · rfl
  · rfl
  · rw [sampleLoop_agree indices counts (meta.map resolveMeta) m s₁ s₂ p
      (by rw [hlen]; exact h)]

/-- C6: the Inverse Sampler takes its random source as an explicit parameter
and has no effect beyond consuming entropy from it: the result is a function
of the histogram, the sample count and the consumed stream values alone, so
two runs whose sources agree on the consumed positions — in particular two
runs from the same seed — return identical Sample Sets. -/
theorem sampler_explicit_random_source (indices : List (List ℕ))
    (counts : List ℚ) (meta : List BinMeta) (m : ℕ)
    (s₁ s₂ : ℕ → ℚ) (p : ℕ)
    (h : ∀ k, k < m * (1 + meta.length) → s₁ (p + k) = s₂ (p + k)) :
    sample_sparse_hist indices counts meta m ⟨s₁, p⟩ =
      sample_sparse_hist indices counts meta m ⟨s₂, p⟩ ∧
    (∀ hist : List (List ℕ × ℕ),
      sample_hist hist meta m ⟨s₁, p⟩ = sample_hist hist meta m ⟨s₂, p⟩) := by
  constructor
  · exact sample_sparse_hist_agree indices counts meta m s₁ s₂ p h
  · intro hist
    unfold sample_hist
    exact sample_sparse_hist_agree _ _ meta m s₁ s₂ p h

/-- witness for C6 at concrete input: the two sources agree on the consumed
positions but differ elsewhere, and the outputs coincide -/
theorem sampler_explicit_random_source_witness :
    sample_sparse_hist [[0]] [1] [BinMeta.edges [0, 1]] 2
        ⟨fun k => if k < 4 then 1 / 2 else 0, 0⟩ =
      sample_sparse_hist [[0]] [1] [BinMeta.edges [0, 1]] 2
        ⟨fun _ => 1 / 2, 0⟩ := by
  have h := (sampler_explicit_random_source [[0]] [1] [BinMeta.edges [0, 1]]
    2 (fun k => if k < 4 then 1 / 2 else 0) (fun _ => 1 / 2) 0
    (by
      intro k hk
      simp only [List.length_cons, List.length_nil] at hk
      norm_num
      omega)).1
  exact h

/-! ### C5: bounding box containment -/

lemma headD_eq_getD (l : List ℕ) : l.headD 0 = l.getD 0 0 := by
  cases l <;> rfl

lemma tail_getD (l : List ℕ) (j : ℕ) : l.tail.getD j 0 = l.getD (j + 1) 0 := by
  cases l <;> rfl

/-- The inverse-CDF selection picks a valid weight index whenever the target
lies strictly below the total of the nonnegative weights. -/
lemma catIndex_lt :
    ∀ (counts : List ℚ) (t : ℚ), (∀ c ∈ counts, 0 ≤ c) → 0 ≤ t →
      t < counts.sum → catIndex counts t < counts.length
  | [], t, _, ht0, hts => by
    simp only [List.sum_nil] at hts
    exact absurd hts (not_lt.mpr ht0)
  | w :: rest, t, hn, ht0, hts => by
    simp only [catIndex, List.length_cons]
    by_cases h : t < w
    · rw [if_pos h]
      omega
    · rw [if_neg h]
      have hw : w ≤ t := not_lt.mp h
      have hrec := catIndex_lt rest (t - w)
        (fun c hc => hn c (List.mem_cons_of_mem _ hc))
        (by linarith)
        (by
          simp only [List.sum_cons] at hts
          linarith)
      omega

/-- Every coordinate produced by the per-point sampler lies within the
closed bounding box of its dimension's edges. -/
lemma samplePoint_bounds :
    ∀ (es : List (List ℚ)) (idx : List ℕ) (s : ℕ → ℚ) (p : ℕ),
      (∀ k, 0 ≤ s k ∧ s k < 1) →
      (∀ e ∈ es, e.Pairwise (· < ·)) →
      (∀ j, j < es.length → idx.getD j 0 + 1 < (es.getD j []).length) →
      ∀ j, j < es.length →
        (es.getD j []).getD 0 0 ≤ (samplePoint es idx ⟨s, p⟩).1.getD j 0 ∧
        (samplePoint es idx ⟨s, p⟩).1.getD j 0 ≤ (es.getD j []).getLastD 0
  | [], _, _, _, _, _, _, j, hj => by simp at hj
  | e :: restE, idx, s, p, hs, hsort, hidx, j, hj => by
    rcases j with _ | j'
    · have hi : idx.headD 0 + 1 < e.length := by
        have h0 := hidx 0 (by simp)
        rw [headD_eq_getD]
        simpa using h0
      have he : e.Pairwise (· < ·) := hsort e (by simp)
      have hlt : e.getD (idx.headD 0) 0 < e.getD (idx.headD 0 + 1) 0 :=
        sorted_getD_lt_succ e he (idx.headD 0) hi
      have hv := hs p
      simp only [samplePoint, RNG.next, List.getD_cons_zero, jitterCoord]
      constructor
      · have h0i : e.getD 0 0 ≤ e.getD (idx.headD 0) 0 :=
          sorted_getD_le e he 0 (idx.headD 0) (Nat.zero_le _) (by omega)
        have hpos : 0 ≤ s p * (e.getD (idx.headD 0 + 1) 0 -
            e.getD (idx.headD 0) 0) :=
          mul_nonneg hv.1 (by linarith)
        linarith
      · have hlast : e.getD (idx.headD 0 + 1) 0 ≤ e.getLastD 0 := by
          rw [getLastD_eq_getD e (by
            intro hnil
            rw [hnil] at hi
            simp at hi)]
          exact sorted_getD_le e he (idx.headD 0 + 1) (e.length - 1)
            (by omega) (by omega)
        have hle1 : s p * (e.getD (idx.headD 0 + 1) 0 -
            e.getD (idx.headD 0) 0) ≤
            e.getD (idx.headD 0 + 1) 0 - e.getD (idx.headD 0) 0 :=
          mul_le_of_le_one_left (by linarith) (le_of_lt hv.2)
        linarith
    · have htail := samplePoint_bounds restE idx.tail s (p + 1) hs
        (fun e' he' => hsort e' (List.mem_cons_of_mem _ he'))
        (fun j hj => by
          have := hidx (j + 1) (by
            simp only [List.length_cons]
            omega)
          simpa [tail_getD] using this)
        j' (by simpa using hj)
      simp only [samplePoint, RNG.next, List.getD_cons_succ]
      exact htail

/-- Every point of the sampling loop lies within the bounding box. -/
lemma sampleLoop_bounds (indices : List (List ℕ)) (counts : List ℚ)
    (es : List (List ℚ))
    (hn : ∀ c ∈ counts, 0 ≤ c) (hsum : 0 < counts.sum)
    (hlen : indices.length = counts.length)
    (hsort : ∀ e ∈ es, e.Pairwise (· < ·))
    (hidx : ∀ idx ∈ indices, ∀ j, j < es.length →
      idx.getD j 0 + 1 < (es.getD j []).length) :
    ∀ (m : ℕ) (s : ℕ → ℚ) (p : ℕ), (∀ k, 0 ≤ s k ∧ s k < 1) →
      ∀ q ∈ (sampleLoop indices counts es m ⟨s, p⟩).1,
        ∀ j, j < es.length →
          (es.getD j []).getD 0 0 ≤ q.getD j 0 ∧
          q.getD j 0 ≤ (es.getD j []).getLastD 0
  | 0, s, p, hs, q, hq => by simp [sampleLoop] at hq
  | Nat.succ m, s, p, hs, q, hq => by
    simp only [sampleLoop, RNG.next, List.mem_cons] at hq
    rcases hq with rfl | hq
    · have hv := hs p
      have htarget0 : 0 ≤ s p * counts.sum :=
        mul_nonneg hv.1 (le_of_lt hsum)
      have htarget1 : s p * counts.sum < counts.sum := by
        have := mul_lt_mul_of_pos_right hv.2 hsum
        simpa using this
      have hj0 : catIndex counts (s p * counts.sum) < indices.length := by
        rw [hlen]
        exact catIndex_lt counts _ hn htarget0 htarget1
      have hmem : indices.getD (catIndex counts (s p * counts.sum)) []
          ∈ indices := by
        rw [List.getD_eq_getElem _ _ hj0]
        exact List.getElem_mem _
      exact samplePoint_bounds es _ s (p + 1) hs hsort
        (fun j hj => hidx _ hmem j hj)
    · rw [samplePoint_rng] at hq
      exact sampleLoop_bounds indices counts es hn hsum hlen hsort hidx
        m s (p + 1 + es.length) hs q hq

/-- C5: every point returned by the Inverse Sampler lies, in each dimension,
within the closed interval from the minimum to the maximum bin edge of that
dimension — the histogram's global bounding box. -/
theorem samples_within_bounding_box (indices : List (List ℕ))
    (counts : List ℚ) (es : List (List ℚ)) (m : ℕ) (s : ℕ → ℚ) (p : ℕ)
    (xs : List (List ℚ))
    (hn : ∀ c ∈ counts, 0 ≤ c) (hsum : 0 < counts.sum)
    (hrng : ∀ k, 0 ≤ s k ∧ s k < 1)
    (hsort : ∀ e ∈ es, e.Pairwise (· < ·))
    (hlen : indices.length = counts.length)
    (hidx : ∀ idx ∈ indices, ∀ j, j < es.length →
      idx.getD j 0 + 1 < (es.getD j []).length)
    (hok : sample_sparse_hist indices counts (es.map BinMeta.edges) m
      ⟨s, p⟩ = .ok xs) :
    ∀ q ∈ xs, ∀ j, j < es.length →
      (es.getD j []).getD 0 0 ≤ q.getD j 0 ∧
      q.getD j 0 ≤ (es.getD j []).getLastD 0 := by
  have hres : (es.map BinMeta.edges).map resolveMeta = es := by
    rw [List.map_map]
    have hcomp : resolveMeta ∘ BinMeta.edges = id := by
      funext e
      rfl
    rw [hcomp, List.map_id]
  have hok' := sample_sparse_hist_ok indices counts (es.map BinMeta.edges)
    m ⟨s, p⟩ hn hsum
  rw [hok, hres] at hok'
  have hxs : xs = (sampleLoop indices counts es m ⟨s, p⟩).1 :=
    Except.ok.inj hok'
  intro q hq
  exact sampleLoop_bounds indices counts es hn hsum hlen hsort hidx
    m s p hrng q (hxs ▸ hq)

/-- witness for C5 at concrete input -/
theorem samples_within_bounding_box_witness :
    (0 : ℚ) ≤ ([(1 : ℚ) / 2] : List ℚ).getD 0 0 ∧
      ([(1 : ℚ) / 2] : List ℚ).getD 0 0 ≤ 1 := by
  have h := samples_within_bounding_box [[0]] [1] [[0, 1]] 1
    (fun _ => 1 / 2) 0 [[1 / 2]]
    (by intro c hc; simp at hc; simp [hc])
    (by norm_num)
    (by intro k; norm_num)
    (by intro e he; simp at he; subst he; norm_num)
    (by simp)
    (by
      intro idx hidx j hj
      simp only [List.mem_cons, List.not_mem_nil, or_false] at hidx
      have hj0 : j = 0 := by
        simp only [List.length_cons, List.length_nil] at hj
        omega
      subst hidx
      subst hj0
      norm_num)
    (by
      rw [sample_sparse_hist_ok [[0]] [1]
        ([[(0 : ℚ), 1]].map BinMeta.edges) 1 ⟨fun _ => 1 / 2, 0⟩
        (by intro c hc; simp at hc; simp [hc]) (by norm_num)]
      simp only [sampleLoop, samplePoint, RNG.next, catIndex, jitterCoord,
        List.map_cons, List.map_nil, resolveMeta]
      norm_num)
  exact h [1 / 2] (by simp) 0 (by simp)

/-! ### C10: coords form and edges form both accepted -/

/-- C10: for a histogram of shape `(k_1, ..., k_d)` with positive total
count, the Inverse Sampler's entry points accept the per-dimension bin
metadata either as bin-center arrays of length `k_j` or as bin-edge arrays
of length `k_j + 1`, and in both forms the call succeeds and returns a
sample array with the requested number of rows and `d` columns. -/
theorem meta_forms_accepted (hist : List (List ℕ × ℕ)) (ks : List ℕ)
    (cs es : List (List ℚ)) (m : ℕ) (r : RNG)
    (hpos : 0 < (hist.map (fun e => e.2)).sum)
    (hcs : cs.length = ks.length) (hes : es.length = ks.length)
    (hclen : ∀ j, j < ks.length → (cs.getD j []).length = ks.getD j 0)
    (helen : ∀ j, j < ks.length →
      (es.getD j []).length = ks.getD j 0 + 1) :
    (∃ xs, sample_hist hist (cs.map BinMeta.coords) m r = .ok xs ∧
      xs.length = m ∧ ∀ q ∈ xs, q.length = ks.length) ∧
    (∃ xs, sample_hist hist (es.map BinMeta.edges) m r = .ok xs ∧
      xs.length = m ∧ ∀ q ∈ xs, q.length = ks.length) := by
  have hnn : ∀ c ∈ hist.map (fun e => (e.2 : ℚ)), 0 ≤ c := by
    intro c hc
    simp only [List.mem_map] at hc
    obtain ⟨e, -, rfl⟩ := hc
    exact Nat.cast_nonneg _
  have hsq : (hist.map (fun e => (e.2 : ℚ))).sum =
      (((hist.map (fun e => e.2)).sum : ℕ) : ℚ) := by
    have hcast := Nat.cast_list_sum (β := ℚ) (hist.map (fun e => e.2))
    rw [List.map_map] at hcast
    exact hcast.symm
  have hsum : 0 < (hist.map (fun e => (e.2 : ℚ))).sum := by
    rw [hsq]
    exact_mod_cast hpos
  constructor
  · have hok : sample_hist hist (cs.map BinMeta.coords) m r =
        .ok (sampleLoop (hist.map (fun e => e.1))
          (hist.map (fun e => (e.2 : ℚ)))
          ((cs.map BinMeta.coords).map resolveMeta) m r).1 := by
      unfold sample_hist
      exact sample_sparse_hist_ok _ _ _ m r hnn hsum
    refine ⟨_, hok, sampleLoop_length _ _ _ m r, ?_⟩
    intro q hq
    have hql := sampleLoop_points_length _ _ _ m r q hq
    rw [hql]
    simp [hcs]
  · have hok : sample_hist hist (es.map BinMeta.edges) m r =
        .ok (sampleLoop (hist.map (fun e => e.1))
          (hist.map (fun e => (e.2 : ℚ)))
          ((es.map BinMeta.edges).map resolveMeta) m r).1 := by
      unfold sample_hist
      exact sample_sparse_hist_ok _ _ _ m r hnn hsum
    refine ⟨_, hok, sampleLoop_length _ _ _ m r, ?_⟩
    intro q hq
    have hql := sampleLoop_points_length _ _ _ m r q hq
    rw [hql]
    simp [hes]

/-- witness for C10 at concrete input -/
theorem meta_forms_accepted_witness :
    ∃ xs, sample_hist [([0], 1)] ([[(1 : ℚ) / 2]].map BinMeta.coords) 2
        ⟨fun _ => 1 / 2, 0⟩ = .ok xs ∧
      xs.length = 2 ∧ ∀ q ∈ xs, q.length = 1 := by
  have h := meta_forms_accepted [([0], 1)] [1] [[(1 : ℚ) / 2]] [[(0 : ℚ), 1]]
    2 ⟨fun _ => 1 / 2, 0⟩ (by norm_num) (by norm_num) (by norm_num)
    (by
      intro j hj
      have hj0 : j = 0 := by
        simp only [List.length_cons, List.length_nil] at hj
        omega
      subst hj0
      norm_num)
    (by
      intro j hj
      have hj0 : j = 0 := by
        simp only [List.length_cons, List.length_nil] at hj
        omega
      subst hj0
      norm_num)
  exact h.1

end PSDist
